import Mathlib

/-!
Shallow embedding of `simplelru/simple_lru.go` (package `simplelru` of
iocn-io/golang-lru): a fixed-size LRU cache with optional per-entry or
cache-wide expiration.

Modelling conventions:
* The Go `evictList *list.List` (a doubly linked list, front = most
  recently used) is a `List (Entry K V)` whose head is the front.
* The Go map `items map[interface{}]*list.Element` stores, per key, a
  pointer into the list.  The pointer's target is recoverable from the
  list (it is the first element whose key matches), so the map is
  modelled by its key set, `items : List K`.
* `time.Now()` is passed explicitly as an integer `now` to each
  operation that reads the clock; durations and instants are `Int`
  (Go's `time.Duration` and `time.Time` are signed).
* The optional `onEvict` callback is modelled by an append-only log
  `evictLog`: each call `onEvict(k, v)` appends `(k, v)`.
* A Go runtime panic (nil-pointer dereference) is modelled by returning
  `none` from the operation.
-/

namespace SimpleLru

/-- The Go struct `entry`: key, value and optional absolute expiry time
(`expire *time.Time`, `nil` = never expires). -/
structure Entry (K V : Type) where
  key : K
  value : V
  expire : Option Int
deriving DecidableEq, Repr

/-- The Go struct `LRU`, with the `onEvict` callback replaced by the log
of its invocations. -/
structure LRU (K V : Type) where
  size : Int
  evictList : List (Entry K V)
  items : List K
  expire : Int
  evictLog : List (K × V)
deriving DecidableEq, Repr

variable {K V : Type} [DecidableEq K]

/-- `NewLRUWithExpire`: fails (returns an error) unless `0 < size`. -/
def NewLRUWithExpire (size : Int) (expire : Int) : Option (LRU K V) :=
  if size ≤ 0 then none
  else some { size := size, evictList := [], items := [], expire := expire, evictLog := [] }

/-- `NewLRU size onEvict = NewLRUWithExpire size 0 onEvict`. -/
def NewLRU (size : Int) : Option (LRU K V) :=
  NewLRUWithExpire size 0

/-- `(*entry).IsExpired`: `false` when `expire == nil`, otherwise
`time.Now().After(*e.expire)`, i.e. strict `>`. -/
def IsExpired (now : Int) (e : Entry K V) : Bool :=
  match e.expire with
  | none => false
  | some t => decide (t < now)

/-- Follow the map's element pointer: the (unique, in reachable states)
list element holding the given key. -/
def findEntry (k : K) : List (Entry K V) → Option (Entry K V)
  | [] => none
  | e :: t => if e.key = k then some e else findEntry k t

/-- `evictList.Remove(ent)` for the element holding key `k`: drop the
first (in reachable states, the only) element with that key. -/
def eraseKey (k : K) : List (Entry K V) → List (Entry K V)
  | [] => []
  | e :: t => if e.key = k then t else e :: eraseKey k t

/-- The effect of `removeElement` when the argument is the back element
`kv` of the list: `evictList.Remove` drops the back, `delete(c.items,
kv.key)` removes the key from the map, and `onEvict(kv.key, kv.value)`
fires. -/
def evictBack (c : LRU K V) (kv : Entry K V) : LRU K V :=
  { c with
    evictList := c.evictList.dropLast
    items := c.items.erase kv.key
    evictLog := c.evictLog ++ [(kv.key, kv.value)] }

/-- The private `removeOldest`: `removeElement(evictList.Back())` when
the list is not empty. -/
def removeOldest (c : LRU K V) : LRU K V :=
  match c.evictList.getLast? with
  | none => c
  | some kv => evictBack c kv

/-- The `for i := 0; i < diff; i++ { c.removeOldest() }` loop of
`Resize`. -/
def removeOldestN : Nat → LRU K V → LRU K V
  | 0, c => c
  | n + 1, c => removeOldestN n (removeOldest c)

/-- The expiration computed at the top of `AddEx`: `now + expire` when
`expire > 0`, else `now + c.expire` when `c.expire > 0`, else `nil`. -/
def effExpire (now : Int) (expire : Int) (cacheExpire : Int) : Option Int :=
  if 0 < expire then some (now + expire)
  else if 0 < cacheExpire then some (now + cacheExpire)
  else none

/-- `AddEx`: on an existing key, `MoveToFront` the element the map
points to and overwrite its `value` and `expire` fields in place (net
effect on the list: the new entry at the front, the old element gone);
on a new key, `PushFront` a fresh entry, add it to the map, and if the
list length now exceeds `c.size`, call `removeOldest`. -/
def AddEx (c : LRU K V) (now : Int) (key : K) (value : V) (expire : Int) :
    Bool × LRU K V :=
  let ex := effExpire now expire c.expire
  if key ∈ c.items then
    (false, { c with evictList := ⟨key, value, ex⟩ :: eraseKey key c.evictList })
  else
    let c1 := { c with
      evictList := ⟨key, value, ex⟩ :: c.evictList
      items := key :: c.items }
    let evict := decide ((c1.evictList.length : Int) > c.size)
    (evict, if evict then removeOldest c1 else c1)

/-- `Add key value = AddEx key value 0`. -/
def Add (c : LRU K V) (now : Int) (key : K) (value : V) : Bool × LRU K V :=
  AddEx c now key value 0

/-- `Get`: on a mapped key whose entry is not expired, `MoveToFront` and
return the value; an expired entry is a miss that changes nothing.  (The
`if v == nil` check in the source is dead code: every stored `entry`
pointer is non-nil.)  The inner `none` branch—key in the map but in no
list element—is unreachable in reachable states. -/
def Get (c : LRU K V) (now : Int) (key : K) : Option V × LRU K V :=
  if key ∈ c.items then
    match findEntry key c.evictList with
    | some e =>
      if IsExpired now e then (none, c)
      else (some e.value, { c with evictList := e :: eraseKey key c.evictList })
    | none => (none, c)
  else (none, c)

/-- `Contains`: mapped and not expired; no state change.  The inner
dangling-pointer branch is unreachable in reachable states. -/
def Contains (c : LRU K V) (now : Int) (key : K) : Bool :=
  if key ∈ c.items then
    match findEntry key c.evictList with
    | some e => !IsExpired now e
    | none => false
  else false

/-- `Peek`: like `Get` but without `MoveToFront`; no state change. -/
def Peek (c : LRU K V) (now : Int) (key : K) : Option V :=
  if key ∈ c.items then
    match findEntry key c.evictList with
    | some e => if IsExpired now e then none else some e.value
    | none => none
  else none

/-- `Remove`: on a mapped key, `removeElement` on the element the map
points to (list removal, map delete, `onEvict(kv.key, kv.value)`);
otherwise return `false`.  The inner `none` branch is unreachable in
reachable states. -/
def Remove (c : LRU K V) (key : K) : Bool × LRU K V :=
  if key ∈ c.items then
    match findEntry key c.evictList with
    | some e =>
      (true, { c with
        evictList := eraseKey key c.evictList
        items := c.items.erase key
        evictLog := c.evictLog ++ [(key, e.value)] })
    | none => (true, { c with items := c.items.erase key })
  else (false, c)

/-- `RemoveOldest`: the `LOOP`—take the back element, `removeElement`
it (which always fires `onEvict`), and if it was expired go round
again; return the first non-expired removed entry, or not-found when
the list empties. -/
def RemoveOldest (c : LRU K V) (now : Int) : Option (K × V) × LRU K V :=
  match h : c.evictList.getLast? with
  | none => (none, c)
  | some kv =>
    if IsExpired now kv then RemoveOldest (evictBack c kv) now
    else (some (kv.key, kv.value), evictBack c kv)
termination_by c.evictList.length
decreasing_by
  have hne : c.evictList ≠ [] := by
    intro hnil
    rw [hnil] at h
    simp at h
  simp only [evictBack, List.length_dropLast]
  have := List.length_pos.mpr hne
  omega

/-- `GetOldest`: the source reads the back element `ent`; when it is
expired it calls `c.removeElement(ent.Next())`.  In `container/list`,
`Next` walks toward the back, so the back element's `Next()` is `nil`,
and `removeElement(nil)` dereferences the nil pointer inside
`evictList.Remove` — a runtime panic, modelled as `none`.  (The panic
happens before any mutation.)  When the back element is fresh it is
returned without mutation. -/
def GetOldest (c : LRU K V) (now : Int) : Option (Option (K × V) × LRU K V) :=
  match c.evictList.getLast? with
  | none => some (none, c)
  | some kv =>
    if IsExpired now kv then none
    else some (some (kv.key, kv.value), c)

/-- `Keys`: walk from `Back()` via `Prev()` (oldest to newest), skipping
expired entries. -/
def Keys (c : LRU K V) (now : Int) : List K :=
  ((c.evictList.reverse.filter fun e => !IsExpired now e).map Entry.key)

/-- `Len`: `evictList.Len()`. -/
def Len (c : LRU K V) : Int :=
  (c.evictList.length : Int)

/-- `Resize`: `diff := c.Len() - size`, clamped at `0`; run
`removeOldest` `diff` times; set `c.size = size`; return `diff`. -/
def Resize (c : LRU K V) (size : Int) : Int × LRU K V :=
  let d := Len c - size
  let diff := if d < 0 then 0 else d
  let c2 := removeOldestN diff.toNat c
  (diff, { c2 with size := size })

/-- The `onEvict` calls of `Purge`: one per map key, with the value read
through the element pointer.  (Go map iteration order is unspecified;
the log is modelled in `items` order, which no claim depends on.) -/
def purgeLog (ks : List K) (l : List (Entry K V)) : List (K × V) :=
  ks.filterMap fun k => (findEntry k l).map fun e => (k, e.value)

/-- `Purge`: fire `onEvict` for every mapped key, delete every map key,
then `evictList.Init()`. -/
def Purge (c : LRU K V) : LRU K V :=
  { c with
    items := []
    evictList := []
    evictLog := c.evictLog ++ purgeLog c.items c.evictList }

/-- One public operation, with the clock value it observes. -/
inductive Op (K V : Type) where
  | addEx (now : Int) (key : K) (value : V) (expire : Int)
  | get (now : Int) (key : K)
  | contains (now : Int) (key : K)
  | peek (now : Int) (key : K)
  | remove (key : K)
  | removeOldest (now : Int)
  | getOldest (now : Int)
  | keys (now : Int)
  | len
  | resize (size : Int)
  | purge
deriving DecidableEq, Repr

/-- The state after one public operation.  `Contains`, `Peek`, `Keys`
and `Len` do not mutate.  A `GetOldest` panic happens before any
mutation, so the state is unchanged there. -/
def step (c : LRU K V) : Op K V → LRU K V
  | .addEx now k v e => (AddEx c now k v e).2
  | .get now k => (Get c now k).2
  | .contains _ _ => c
  | .peek _ _ => c
  | .remove k => (Remove c k).2
  | .removeOldest now => (RemoveOldest c now).2
  | .getOldest now =>
    match GetOldest c now with
    | some r => r.2
    | none => c
  | .keys _ => c
  | .len => c
  | .resize n => (Resize c n).2
  | .purge => Purge c

/-- Run a sequence of public operations. -/
def run (c : LRU K V) (ops : List (Op K V)) : LRU K V :=
  ops.foldl step c

/-- Run a sequence of `AddEx` calls, each a tuple
`(now, key, value, expire)`. -/
def runAdds (c : LRU K V) (ps : List (Int × K × V × Int)) : LRU K V :=
  ps.foldl (fun c p => (AddEx c p.1 p.2.1 p.2.2.1 p.2.2.2).2) c

/-- The keys of the recency list, in list order. -/
def keyList (c : LRU K V) : List K :=
  c.evictList.map Entry.key

/-- The map/list coherence invariant: both key collections are
duplicate-free and have the same members. -/
def Inv (c : LRU K V) : Prop :=
  c.items.Nodup ∧ (keyList c).Nodup ∧ ∀ k : K, k ∈ c.items ↔ k ∈ keyList c

/-- The spec's description of `RemoveOldest`, written directly over the
reversed recency list (back of the list first): every expired entry at
the back is physically removed (and logged via `onEvict`), then the
first non-expired one — if any — is also removed, logged, and returned;
when everything was expired the cache empties and `none` is returned.
(`removeOldestSpec` is the spec-side counterpart against which the
source-side `RemoveOldest` is compared.) -/
def removeOldestSpec (c : LRU K V) (now : Int) : Option (K × V) × LRU K V :=
  let rest := c.evictList.reverse.dropWhile fun e => IsExpired now e
  let removed := (c.evictList.reverse.takeWhile fun e => IsExpired now e) ++ rest.take 1
  (rest.head?.map fun e => (e.key, e.value),
   { size := c.size
     evictList := (rest.drop 1).reverse
     items := removed.foldl (fun s e => s.erase e.key) c.items
     expire := c.expire
     evictLog := c.evictLog ++ removed.map fun e => (e.key, e.value) })

/-- The spec's description of `AddEx` on a key that is NOT indexed: a
new entry carrying the effective expiration is pushed at the front and
the key joins the index; the call reports an eviction exactly when the
new length exceeds the capacity, in which case exactly one entry — the
back one, expired or not — is removed and `onEvict` fires once with its
key and value; otherwise nothing is removed and nothing is logged. -/
def addExNewSpec (c : LRU K V) (now : Int) (k : K) (v : V) (ttl : Int) : Prop :=
  ((AddEx c now k v ttl).1 = true ↔ (c.evictList.length : Int) + 1 > c.size) ∧
  ((c.evictList.length : Int) + 1 ≤ c.size →
    AddEx c now k v ttl = (false, { c with
      evictList := ⟨k, v, effExpire now ttl c.expire⟩ :: c.evictList
      items := k :: c.items })) ∧
  ((c.evictList.length : Int) + 1 > c.size →
    ∃ old, (⟨k, v, effExpire now ttl c.expire⟩ :: c.evictList).getLast? = some old ∧
      AddEx c now k v ttl = (true,
        { size := c.size
          evictList := (⟨k, v, effExpire now ttl c.expire⟩ :: c.evictList).dropLast
          items := (k :: c.items).erase old.key
          expire := c.expire
          evictLog := c.evictLog ++ [(old.key, old.value)] }))

/-- The spec's description of `AddEx` on a key that IS indexed: value
and expiration replaced in place, entry moved to the front, no
eviction reported, nothing removed, `onEvict` silent, the length and
the index unchanged; and the effective expiration is `now + ttl` when
`ttl > 0`, else `now + defaultTTL` when `defaultTTL > 0`, else none. -/
def addExExistingSpec (c : LRU K V) (now : Int) (k : K) (v : V) (ttl : Int) : Prop :=
  AddEx c now k v ttl =
    (false, { c with
      evictList := ⟨k, v, effExpire now ttl c.expire⟩ :: eraseKey k c.evictList }) ∧
  (AddEx c now k v ttl).2.evictList.length = c.evictList.length ∧
  (AddEx c now k v ttl).2.items = c.items ∧
  (AddEx c now k v ttl).2.evictLog = c.evictLog ∧
  (AddEx c now k v ttl).2.size = c.size ∧
  effExpire now ttl c.expire =
    (if 0 < ttl then some (now + ttl)
     else if 0 < c.expire then some (now + c.expire) else none)

/-- The result the spec assigns to `Resize c n` for `0 ≤ n`: the back
entries beyond the first `n` are evicted (each firing `onEvict`, back
to front) and the eviction count is returned; growing evicts nothing. -/
def resizeResult (c : LRU K V) (n : Int) : Int × LRU K V :=
  (max (Len c - n) 0,
   {
     size := n
     evictList := c.evictList.take n.toNat
     items := ((c.evictList.drop n.toNat).reverse).foldl
       (fun s e => s.erase e.key) c.items
     expire := c.expire
     evictLog := c.evictLog ++
       ((c.evictList.drop n.toNat).reverse.map fun e => (e.key, e.value)) })

/-- The spec's description of `Resize`: the result and state are
`resizeResult`, and the returned count equals the number of `onEvict`
notifications fired by the call. -/
def resizeSpec (c : LRU K V) (n : Int) : Prop :=
  Resize c n = resizeResult c n ∧
  (Resize c n).1 =
    ((Resize c n).2.evictLog.length : Int) - (c.evictLog.length : Int)

theorem findEntry_eq_none {k : K} {l : List (Entry K V)} :
    findEntry k l = none ↔ k ∉ l.map Entry.key := by
  induction l with
  | nil => simp [findEntry]
  | cons e t ih =>
    by_cases h : e.key = k
    · simp [findEntry, h]
    · simp only [findEntry, if_neg h, List.map_cons, List.mem_cons, not_or, ih]
      constructor
      · intro hn
        exact ⟨fun hk => h hk.symm, hn⟩
      · intro hn
        exact hn.2

theorem findEntry_key {k : K} {l : List (Entry K V)} {e : Entry K V}
    (h : findEntry k l = some e) : e.key = k := by
  induction l with
  | nil => simp [findEntry] at h
  | cons a t ih =>
    by_cases ha : a.key = k
    · simp only [findEntry, if_pos ha] at h
      cases h
      exact ha
    · simp only [findEntry, if_neg ha] at h
      exact ih h

theorem findEntry_mem {k : K} {l : List (Entry K V)} {e : Entry K V}
    (h : findEntry k l = some e) : e ∈ l := by
  induction l with
  | nil => simp [findEntry] at h
  | cons a t ih =>
    by_cases ha : a.key = k
    · simp only [findEntry, if_pos ha] at h
      cases h
      exact List.mem_cons_self _ _
    · simp only [findEntry, if_neg ha] at h
      exact List.mem_cons_of_mem _ (ih h)

theorem findEntry_isSome_of_mem {k : K} {l : List (Entry K V)}
    (h : k ∈ l.map Entry.key) : ∃ e, findEntry k l = some e := by
  cases he : findEntry k l with
  | none => exact absurd h (findEntry_eq_none.mp he)
  | some e => exact ⟨e, rfl⟩

theorem map_key_eraseKey (k : K) (l : List (Entry K V)) :
    (eraseKey k l).map Entry.key = (l.map Entry.key).erase k := by
  induction l with
  | nil => simp [eraseKey]
  | cons e t ih =>
    by_cases h : e.key = k
    · simp [eraseKey, h, List.erase_cons]
    · simp [eraseKey, h, List.erase_cons, ih]

theorem eraseKey_of_not_mem {k : K} {l : List (Entry K V)}
    (h : k ∉ l.map Entry.key) : eraseKey k l = l := by
  induction l with
  | nil => rfl
  | cons e t ih =>
    simp only [List.map_cons, List.mem_cons, not_or] at h
    have h1 : ¬e.key = k := fun hk => h.1 hk.symm
    simp [eraseKey, h1, ih h.2]

theorem length_eraseKey_of_mem {k : K} {l : List (Entry K V)}
    (h : k ∈ l.map Entry.key) : (eraseKey k l).length + 1 = l.length := by
  induction l with
  | nil => simp at h
  | cons e t ih =>
    by_cases he : e.key = k
    · simp [eraseKey, he]
    · simp only [List.map_cons, List.mem_cons] at h
      rcases h with h | h
      · exact absurd h.symm he
      · simp [eraseKey, he, ← ih h]

theorem keyList_evictBack (c : LRU K V) (kv : Entry K V) :
    keyList (evictBack c kv) = c.evictList.dropLast.map Entry.key := rfl

theorem inv_evictBack {c : LRU K V} {kv : Entry K V}
    (h : c.evictList.getLast? = some kv) (hI : Inv c) : Inv (evictBack c kv) := by
  obtain ⟨h1, h2, h3⟩ := hI
  have hsplit : c.evictList.dropLast ++ [kv] = c.evictList :=
    List.dropLast_append_getLast? kv h
  have hkeys : (c.evictList.dropLast.map Entry.key) ++ [kv.key] = keyList c := by
    rw [keyList]
    conv_rhs => rw [← hsplit]
    rw [List.map_append]
    rfl
  have h2' : (c.evictList.dropLast.map Entry.key).Nodup :=
    List.Nodup.sublist ((List.dropLast_sublist _).map _) (by rw [keyList] at h2; exact h2)
  have hnm : kv.key ∉ c.evictList.dropLast.map Entry.key := by
    intro hmem
    have hnd := h2
    rw [← hkeys] at hnd
    rcases List.nodup_append.mp hnd with ⟨-, -, hdisj⟩
    exact hdisj hmem (List.mem_singleton_self _)
  refine ⟨h1.erase _, h2', fun x => ?_⟩
  show x ∈ c.items.erase kv.key ↔ x ∈ c.evictList.dropLast.map Entry.key
  rw [List.Nodup.mem_erase_iff h1]
  constructor
  · rintro ⟨hxne, hxi⟩
    have hx : x ∈ keyList c := (h3 x).mp hxi
    rw [← hkeys, List.mem_append, List.mem_singleton] at hx
    rcases hx with hx | hx
    · exact hx
    · exact absurd hx hxne
  · intro hx
    refine ⟨fun hxe => hnm (hxe ▸ hx), (h3 x).mpr ?_⟩
    rw [← hkeys, List.mem_append]
    exact Or.inl hx

theorem inv_removeOldest {c : LRU K V} (hI : Inv c) : Inv (removeOldest c) := by
  cases h : c.evictList.getLast? with
  | none => simpa [removeOldest, h] using hI
  | some kv => simpa [removeOldest, h] using inv_evictBack h hI

theorem inv_removeOldestN {c : LRU K V} (n : Nat) (hI : Inv c) :
    Inv (removeOldestN n c) := by
  induction n generalizing c with
  | zero => exact hI
  | succ m ih => exact ih (inv_removeOldest hI)

theorem inv_AddEx {c : LRU K V} (now : Int) (k : K) (v : V) (e : Int)
    (hI : Inv c) : Inv (AddEx c now k v e).2 := by
  obtain ⟨h1, h2, h3⟩ := hI
  by_cases hk : k ∈ c.items
  · have hkl : k ∈ c.evictList.map Entry.key := (h3 k).mp hk
    have hperm : (k :: (c.evictList.map Entry.key).erase k).Perm
        (c.evictList.map Entry.key) := (List.perm_cons_erase hkl).symm
    simp only [AddEx, if_pos hk]
    refine ⟨h1, ?_, fun x => ?_⟩
    · show ((⟨k, v, effExpire now e c.expire⟩ :: eraseKey k c.evictList).map Entry.key).Nodup
      simp only [List.map_cons, map_key_eraseKey]
      exact hperm.nodup_iff.mpr h2
    · show x ∈ c.items ↔ x ∈ (⟨k, v, effExpire now e c.expire⟩ :: eraseKey k c.evictList).map Entry.key
      simp only [List.map_cons, map_key_eraseKey]
      rw [hperm.mem_iff]
      exact h3 x
  · have hkl : k ∉ c.evictList.map Entry.key := fun hm => hk ((h3 k).mpr hm)
    have hI1 : Inv { c with
        evictList := ⟨k, v, effExpire now e c.expire⟩ :: c.evictList
        items := k :: c.items } := by
      refine ⟨List.nodup_cons.mpr ⟨hk, h1⟩, ?_, fun x => ?_⟩
      · show (k :: c.evictList.map Entry.key).Nodup
        exact List.nodup_cons.mpr ⟨hkl, h2⟩
      · show x ∈ k :: c.items ↔ x ∈ k :: c.evictList.map Entry.key
        rw [List.mem_cons, List.mem_cons, h3 x, keyList]
    simp only [AddEx, if_neg hk]
    split
    · exact inv_removeOldest hI1
    · exact hI1

theorem inv_Get {c : LRU K V} (now : Int) (k : K) (hI : Inv c) :
    Inv (Get c now k).2 := by
  obtain ⟨h1, h2, h3⟩ := hI
  by_cases hk : k ∈ c.items
  · cases hf : findEntry k c.evictList with
    | none => simp only [Get, if_pos hk, hf]; exact ⟨h1, h2, h3⟩
    | some e =>
      by_cases hex : IsExpired now e
      · simp only [Get, if_pos hk, hf, if_pos hex]
        exact ⟨h1, h2, h3⟩
      · have hkl : k ∈ c.evictList.map Entry.key := (h3 k).mp hk
        have hperm : (k :: (c.evictList.map Entry.key).erase k).Perm
            (c.evictList.map Entry.key) := (List.perm_cons_erase hkl).symm
        have hek : e.key = k := findEntry_key hf
        simp only [Get, if_pos hk, hf, if_neg hex]
        refine ⟨h1, ?_, fun x => ?_⟩
        · show ((e :: eraseKey k c.evictList).map Entry.key).Nodup
          simp only [List.map_cons, map_key_eraseKey, hek]
          exact hperm.nodup_iff.mpr h2
        · show x ∈ c.items ↔ x ∈ (e :: eraseKey k c.evictList).map Entry.key
          simp only [List.map_cons, map_key_eraseKey, hek]
          rw [hperm.mem_iff]
          exact h3 x
  · simp only [Get, if_neg hk]
    exact ⟨h1, h2, h3⟩

theorem inv_Remove {c : LRU K V} (k : K) (hI : Inv c) : Inv (Remove c k).2 := by
  obtain ⟨h1, h2, h3⟩ := hI
  by_cases hk : k ∈ c.items
  · cases hf : findEntry k c.evictList with
    | none =>
      exact absurd ((h3 k).mp hk) (findEntry_eq_none.mp hf)
    | some e =>
      simp only [Remove, if_pos hk, hf]
      refine ⟨h1.erase _, ?_, fun x => ?_⟩
      · show ((eraseKey k c.evictList).map Entry.key).Nodup
        rw [map_key_eraseKey]
        exact h2.erase _
      · have h2' : (c.evictList.map Entry.key).Nodup := h2
        show x ∈ c.items.erase k ↔ x ∈ (eraseKey k c.evictList).map Entry.key
        rw [map_key_eraseKey, List.Nodup.mem_erase_iff h1, List.Nodup.mem_erase_iff h2']
        exact and_congr Iff.rfl (h3 x)
  · simp only [Remove, if_neg hk]
    exact ⟨h1, h2, h3⟩

theorem inv_RemoveOldest_aux (n : Nat) :
    ∀ (c : LRU K V) (now : Int), c.evictList.length ≤ n → Inv c →
      Inv (RemoveOldest c now).2 := by
  induction n with
  | zero =>
    intro c now hlen hI
    rw [RemoveOldest.eq_def]
    split
    · exact hI
    · rename_i kv hkv
      have : c.evictList = [] := List.length_eq_zero.mp (Nat.le_zero.mp hlen)
      rw [this] at hkv
      simp at hkv
  | succ m ih =>
    intro c now hlen hI
    rw [RemoveOldest.eq_def]
    split
    · exact hI
    · rename_i kv hkv
      have hne : c.evictList ≠ [] := by
        intro hnil
        rw [hnil] at hkv
        simp at hkv
      have hpos : 0 < c.evictList.length := List.length_pos.mpr hne
      split
      · apply ih
        · show (evictBack c kv).evictList.length ≤ m
          simp only [evictBack, List.length_dropLast]
          omega
        · exact inv_evictBack hkv hI
      · exact inv_evictBack hkv hI

theorem inv_RemoveOldest {c : LRU K V} (now : Int) (hI : Inv c) :
    Inv (RemoveOldest c now).2 :=
  inv_RemoveOldest_aux c.evictList.length c now le_rfl hI

theorem inv_Resize {c : LRU K V} (n : Int) (hI : Inv c) : Inv (Resize c n).2 := by
  show Inv { removeOldestN (if Len c - n < 0 then 0 else Len c - n).toNat c with size := n }
  exact inv_removeOldestN _ hI

theorem inv_Purge (c : LRU K V) : Inv (Purge c) := by
  refine ⟨List.nodup_nil, List.nodup_nil, fun k => ?_⟩
  simp [Purge, keyList]

theorem inv_step {c : LRU K V} (op : Op K V) (hI : Inv c) : Inv (step c op) := by
  cases op with
  | addEx now k v e => exact inv_AddEx now k v e hI
  | get now k => exact inv_Get now k hI
  | contains now k => exact hI
  | peek now k => exact hI
  | remove k => exact inv_Remove k hI
  | removeOldest now => exact inv_RemoveOldest now hI
  | getOldest now =>
    show Inv (match GetOldest c now with | some r => r.2 | none => c)
    cases h : c.evictList.getLast? with
    | none => simpa [GetOldest, h] using hI
    | some kv =>
      by_cases hex : IsExpired now kv
      · simpa [GetOldest, h, hex] using hI
      · simpa [GetOldest, h, hex] using hI
  | keys now => exact hI
  | len => exact hI
  | resize n => exact inv_Resize n hI
  | purge => exact inv_Purge c

theorem inv_run {c : LRU K V} (ops : List (Op K V)) (hI : Inv c) :
    Inv (run c ops) := by
  induction ops generalizing c with
  | nil => exact hI
  | cons op rest ih => exact ih (inv_step op hI)

theorem new_some {cap ttl : Int} {c0 : LRU K V}
    (h : NewLRUWithExpire cap ttl = some c0) :
    0 < cap ∧ c0 = { size := cap, evictList := [], items := [], expire := ttl, evictLog := [] } := by
  by_cases hc : cap ≤ 0
  · simp [NewLRUWithExpire, hc] at h
  · refine ⟨by omega, ?_⟩
    simp only [NewLRUWithExpire, if_neg hc] at h
    exact (Option.some.inj h).symm

theorem inv_new {cap ttl : Int} {c0 : LRU K V}
    (h : NewLRUWithExpire cap ttl = some c0) : Inv c0 := by
  rw [(new_some h).2]
  exact ⟨List.nodup_nil, List.nodup_nil, fun k => by simp [keyList]⟩

theorem size_removeOldest (c : LRU K V) : (removeOldest c).size = c.size := by
  cases h : c.evictList.getLast? with
  | none => simp [removeOldest, h]
  | some kv => simp [removeOldest, h, evictBack]

theorem len_removeOldest (c : LRU K V) :
    (removeOldest c).evictList.length = c.evictList.length - 1 := by
  cases h : c.evictList.getLast? with
  | none =>
    have : c.evictList = [] := List.getLast?_eq_none_iff.mp h
    simp [removeOldest, h, this]
  | some kv => simp [removeOldest, h, evictBack, List.length_dropLast]

theorem size_AddEx (c : LRU K V) (now : Int) (k : K) (v : V) (e : Int) :
    (AddEx c now k v e).2.size = c.size := by
  by_cases hk : k ∈ c.items
  · simp [AddEx, hk]
  · simp only [AddEx, if_neg hk]
    split
    · exact size_removeOldest _
    · rfl

theorem len_AddEx {c : LRU K V} (now : Int) (k : K) (v : V) (e : Int)
    (hI : Inv c) (hle : (c.evictList.length : Int) ≤ c.size) :
    ((AddEx c now k v e).2.evictList.length : Int) ≤ c.size := by
  by_cases hk : k ∈ c.items
  · have hkl : k ∈ c.evictList.map Entry.key := (hI.2.2 k).mp hk
    have hlen := length_eraseKey_of_mem hkl
    simp only [AddEx, if_pos hk, List.length_cons]
    rw [hlen]
    exact hle
  · simp only [AddEx, if_neg hk]
    split
    · rename_i hev
      rw [len_removeOldest]
      simp only [List.length_cons, Nat.add_sub_cancel]
      exact hle
    · rename_i hev
      simp only [decide_eq_true_eq, gt_iff_lt, not_lt, List.length_cons] at hev
      simp only [List.length_cons]
      exact hev

theorem len_runAdds_le {c : LRU K V} (ps : List (Int × K × V × Int))
    (hI : Inv c) (hle : Len c ≤ c.size) :
    Len (runAdds c ps) ≤ (runAdds c ps).size ∧ (runAdds c ps).size = c.size := by
  induction ps generalizing c with
  | nil => exact ⟨hle, rfl⟩
  | cons p t ih =>
    have hstep : runAdds c (p :: t) = runAdds (AddEx c p.1 p.2.1 p.2.2.1 p.2.2.2).2 t := rfl
    rw [hstep]
    have hI' := inv_AddEx p.1 p.2.1 p.2.2.1 p.2.2.2 hI
    have hs := size_AddEx c p.1 p.2.1 p.2.2.1 p.2.2.2
    have hle' : Len (AddEx c p.1 p.2.1 p.2.2.1 p.2.2.2).2 ≤
        (AddEx c p.1 p.2.1 p.2.2.1 p.2.2.2).2.size := by
      rw [hs]
      exact len_AddEx p.1 p.2.1 p.2.2.1 p.2.2.2 hI hle
    rcases ih hI' hle' with ⟨hA, hB⟩
    exact ⟨hA, hB.trans hs⟩

theorem head?_dropWhile_false {α : Type} (p : α → Bool) :
    ∀ (l : List α) {a : α}, (l.dropWhile p).head? = some a → p a = false := by
  intro l
  induction l with
  | nil =>
    intro a h
    simp [List.dropWhile] at h
  | cons x xs ih =>
    intro a h
    by_cases hp : p x
    · rw [List.dropWhile_cons, if_pos hp] at h
      exact ih h
    · rw [List.dropWhile_cons, if_neg hp] at h
      obtain rfl : x = a := Option.some.inj h
      simpa using hp

theorem removeOldestSpec_nil {c : LRU K V} (now : Int) (h : c.evictList = []) :
    removeOldestSpec c now = (none, c) := by
  obtain ⟨s, l, it, ex, lg⟩ := c
  simp only at h
  subst h
  simp [removeOldestSpec]

theorem removeOldest_spec_aux (n : Nat) :
    ∀ (c : LRU K V) (now : Int), c.evictList.length ≤ n →
      RemoveOldest c now = removeOldestSpec c now := by
  induction n with
  | zero =>
    intro c now hlen
    have hnil : c.evictList = [] := List.length_eq_zero.mp (Nat.le_zero.mp hlen)
    rw [RemoveOldest.eq_def, removeOldestSpec_nil now hnil]
    split
    · rfl
    · rename_i kv hkv
      rw [hnil] at hkv
      simp at hkv
  | succ m ih =>
    intro c now hlen
    rw [RemoveOldest.eq_def]
    split
    · rename_i hkv
      have hnil : c.evictList = [] := List.getLast?_eq_none_iff.mp hkv
      rw [removeOldestSpec_nil now hnil]
    · rename_i kv hkv
      have hsplit : c.evictList.dropLast ++ [kv] = c.evictList :=
        List.dropLast_append_getLast? kv hkv
      have hrev : c.evictList.reverse = kv :: c.evictList.dropLast.reverse := by
        conv_lhs => rw [← hsplit]
        exact List.reverse_concat _ _
      have hne : c.evictList ≠ [] := by
        intro hx
        rw [hx] at hkv
        simp at hkv
      have hlen' : (evictBack c kv).evictList.length ≤ m := by
        have := List.length_pos.mpr hne
        simp only [evictBack, List.length_dropLast]
        omega
      by_cases hex : IsExpired now kv
      · rw [if_pos hex, ih _ now hlen']
        simp only [removeOldestSpec, evictBack, hrev, List.dropWhile_cons,
          List.takeWhile_cons, hex, if_true, List.cons_append, List.foldl_cons,
          List.map_cons, List.append_assoc, List.singleton_append, List.nil_append]
      · have hex' : IsExpired now kv = false := by
          simp at hex
          exact hex
        rw [if_neg hex]
        simp only [removeOldestSpec, hrev, List.dropWhile_cons, List.takeWhile_cons,
          hex', Bool.false_eq_true, if_false, List.take_succ_cons, List.take_zero,
          List.drop_succ_cons, List.drop_zero, List.reverse_reverse, List.head?_cons,
          Option.map_some', List.nil_append, List.foldl_cons, List.foldl_nil,
          List.map_cons, List.map_nil, evictBack]

theorem RemoveOldest_eq_spec (c : LRU K V) (now : Int) :
    RemoveOldest c now = removeOldestSpec c now :=
  removeOldest_spec_aux c.evictList.length c now le_rfl

theorem removeOldestN_spec (m : Nat) :
    ∀ c : LRU K V, removeOldestN m c =
      { size := c.size
        evictList := c.evictList.take (c.evictList.length - m)
        items := ((c.evictList.drop (c.evictList.length - m)).reverse).foldl
          (fun s e => s.erase e.key) c.items
        expire := c.expire
        evictLog := c.evictLog ++
          ((c.evictList.drop (c.evictList.length - m)).reverse.map
            fun e => (e.key, e.value)) } := by
  induction m with
  | zero =>
    intro c
    simp [removeOldestN, List.take_length, List.drop_length]
  | succ m ih =>
    intro c
    show removeOldestN m (removeOldest c) = _
    cases hkv : c.evictList.getLast? with
    | none =>
      have hnil : c.evictList = [] := List.getLast?_eq_none_iff.mp hkv
      have h0 : removeOldest c = c := by simp [removeOldest, hkv]
      rw [h0, ih c]
      simp [hnil]
    | some kv =>
      have hsplit : c.evictList.dropLast ++ [kv] = c.evictList :=
        List.dropLast_append_getLast? kv hkv
      have h0 : removeOldest c = evictBack c kv := by simp [removeOldest, hkv]
      rw [h0, ih]
      simp only [evictBack]
      conv_rhs => rw [← hsplit]
      have hL : (c.evictList.dropLast ++ [kv]).length - (m + 1) =
          c.evictList.dropLast.length - m := by
        simp only [List.length_append, List.length_singleton]
        omega
      rw [hL, List.take_append_of_le_length (Nat.sub_le _ _),
        List.drop_append_of_le_length (Nat.sub_le _ _)]
      simp only [List.reverse_concat, List.foldl_cons, List.map_cons,
        List.append_assoc, List.singleton_append]

/-- C1: the spec states that `GetOldest`, on finding the back (oldest)
entry expired, physically removes that back entry and examines the next
one.  The source instead calls `c.removeElement(ent.Next())` where `ent`
is the back element: in `container/list` the back element's `Next()` is
nil, so `removeElement` dereferences a nil pointer and the operation
panics (modelled here as `none`) without removing anything.  Evaluation
at a failing input: a cache whose single — hence back — entry expired at
time 3, observed at time 5. -/
theorem getOldest_expired_back_panics :
    GetOldest ({ size := 3, evictList := [⟨1, 10, some 3⟩], items := [1], expire := 0, evictLog := [] } : LRU Nat Nat) 5 = none := rfl

/-- C2: from any successfully constructed cache (so with positive
capacity), after every sequence of `AddEx` calls, `Len` is at most the
capacity.  The proof does not even need the claim's distinct-keys
restriction, and quantifying over all sequences covers the state after
every intermediate operation. -/
theorem put_sequences_respect_capacity {K V : Type} [DecidableEq K]
    (cap ttl : Int) (c0 : LRU K V) (h : NewLRUWithExpire cap ttl = some c0)
    (ps : List (Int × K × V × Int)) : Len (runAdds c0 ps) ≤ cap := by
  obtain ⟨hcap, hc0⟩ := new_some h
  subst hc0
  rcases len_runAdds_le ps (inv_new h) (by simp [Len]; omega) with ⟨hA, hB⟩
  rw [hB] at hA
  exact hA

/-- C2 witness: three inserts into a capacity-2 cache. -/
theorem put_sequences_respect_capacity_witness :
    Len (runAdds ({ size := 2, evictList := [], items := [], expire := 0, evictLog := [] } : LRU Nat Nat)
      [(0, 1, 11, 0), (0, 2, 22, 0), (1, 3, 33, 5)]) ≤ 2 :=
  put_sequences_respect_capacity 2 0 _ rfl _

/-- C3: in every state reachable from a freshly constructed cache by any
sequence of public operations, a key is in the index map exactly when it
is the key of an entry of the recency list, and the two sizes agree. -/
theorem index_recency_bijection {K V : Type} [DecidableEq K] (cap ttl : Int)
    (c0 : LRU K V) (h : NewLRUWithExpire cap ttl = some c0)
    (ops : List (Op K V)) :
    (∀ k : K, k ∈ (run c0 ops).items ↔ k ∈ (run c0 ops).evictList.map Entry.key) ∧
    (run c0 ops).items.length = (run c0 ops).evictList.length := by
  obtain ⟨h1, h2, h3⟩ := inv_run ops (inv_new h)
  have h2' : ((run c0 ops).evictList.map Entry.key).Nodup := h2
  have h3' : ∀ k : K, k ∈ (run c0 ops).items ↔
      k ∈ (run c0 ops).evictList.map Entry.key := h3
  refine ⟨h3', ?_⟩
  have hfs : (run c0 ops).items.toFinset =
      ((run c0 ops).evictList.map Entry.key).toFinset := by
    ext a
    simp only [List.mem_toFinset]
    exact h3' a
  calc (run c0 ops).items.length
      = (run c0 ops).items.toFinset.card := (List.toFinset_card_of_nodup h1).symm
    _ = ((run c0 ops).evictList.map Entry.key).toFinset.card := by rw [hfs]
    _ = ((run c0 ops).evictList.map Entry.key).length :=
        List.toFinset_card_of_nodup h2'
    _ = (run c0 ops).evictList.length := List.length_map _ _

/-- C3 witness: a concrete run with inserts, a hit, a removal and a
resize on a capacity-2 cache. -/
theorem index_recency_bijection_witness :
    (∀ k : Nat, k ∈ (run ({ size := 2, evictList := [], items := [], expire := 0, evictLog := [] } : LRU Nat Nat)
        [Op.addEx 0 1 11 0, Op.addEx 0 2 22 0, Op.get 1 1, Op.remove 2,
          Op.resize 1]).items ↔
      k ∈ (run ({ size := 2, evictList := [], items := [], expire := 0, evictLog := [] } : LRU Nat Nat)
        [Op.addEx 0 1 11 0, Op.addEx 0 2 22 0, Op.get 1 1, Op.remove 2,
          Op.resize 1]).evictList.map Entry.key) ∧
    (run ({ size := 2, evictList := [], items := [], expire := 0, evictLog := [] } : LRU Nat Nat)
      [Op.addEx 0 1 11 0, Op.addEx 0 2 22 0, Op.get 1 1, Op.remove 2,
        Op.resize 1]).items.length =
    (run ({ size := 2, evictList := [], items := [], expire := 0, evictLog := [] } : LRU Nat Nat)
      [Op.addEx 0 1 11 0, Op.addEx 0 2 22 0, Op.get 1 1, Op.remove 2,
        Op.resize 1]).evictList.length :=
  index_recency_bijection 2 0 _ rfl _

/-- C4: the spec states that no public operation can panic after valid
construction.  Counterexample execution: construct with capacity 1
(shown by the constructor equation), `AddEx` key 2 with ttl 1 at time 0,
then call `GetOldest` at time 2 — the back entry is expired, the source
dereferences the nil `ent.Next()`, and the operation panics (modelled
as `none`). -/
theorem getOldest_panic_reachable :
    NewLRUWithExpire 1 0 = some ({ size := 1, evictList := [], items := [], expire := 0, evictLog := [] } : LRU Nat Nat) ∧
    GetOldest (run ({ size := 1, evictList := [], items := [], expire := 0, evictLog := [] } : LRU Nat Nat) [Op.addEx 0 2 20 1]) 2 = none :=
  ⟨rfl, rfl⟩

/-- C5: `RemoveOldest` behaves exactly as `removeOldestSpec` describes —
it removes the run of expired entries at the back plus the first fresh
one, firing `onEvict` for every physical removal, returns not-found when
the list empties — and any returned key/value pair belongs to a
non-expired entry of the original list. -/
theorem removeOldest_returns_fresh (c : LRU K V) (now : Int) :
    RemoveOldest c now = removeOldestSpec c now ∧
    ∀ k v, (RemoveOldest c now).1 = some (k, v) →
      ∃ e ∈ c.evictList, e.key = k ∧ e.value = v ∧ IsExpired now e = false := by
  refine ⟨RemoveOldest_eq_spec c now, fun k v hkv => ?_⟩
  rw [RemoveOldest_eq_spec c now] at hkv
  simp only [removeOldestSpec] at hkv
  rcases Option.map_eq_some'.mp hkv with ⟨e, he, hfe⟩
  simp only [Prod.mk.injEq] at hfe
  have hmem : e ∈ c.evictList.reverse.dropWhile fun x => IsExpired now x :=
    List.mem_of_mem_head? he
  exact ⟨e, List.mem_reverse.mp ((List.dropWhile_sublist _).subset hmem),
    hfe.1, hfe.2, head?_dropWhile_false _ _ he⟩

/-- C6: `AddEx` of a key that is not indexed satisfies `addExNewSpec`:
new entry at the front, key added to the index, eviction of exactly the
back entry (expired or not) with one `onEvict` exactly when the new
length exceeds the capacity. -/
theorem addEx_new_key (c : LRU K V) (now : Int) (k : K) (v : V) (ttl : Int)
    (hk : k ∉ c.items) : addExNewSpec c now k v ttl := by
  refine ⟨?_, ?_, ?_⟩
  · simp only [AddEx, if_neg hk, decide_eq_true_eq, List.length_cons]
    push_cast
    omega
  · intro hle
    have hev : decide (((⟨k, v, effExpire now ttl c.expire⟩ :: c.evictList :
        List (Entry K V)).length : Int) > c.size) = false := by
      simp only [decide_eq_false_iff_not, gt_iff_lt, not_lt, List.length_cons]
      push_cast
      omega
    simp only [AddEx, if_neg hk, hev, Bool.false_eq_true, if_false]
  · intro hgt
    have hne : (⟨k, v, effExpire now ttl c.expire⟩ :: c.evictList :
        List (Entry K V)) ≠ [] := by simp
    have hev : decide (((⟨k, v, effExpire now ttl c.expire⟩ :: c.evictList :
        List (Entry K V)).length : Int) > c.size) = true := by
      simp only [decide_eq_true_eq, gt_iff_lt, List.length_cons]
      push_cast
      omega
    refine ⟨(⟨k, v, effExpire now ttl c.expire⟩ :: c.evictList).getLast hne,
      List.getLast?_eq_getLast _ hne, ?_⟩
    simp only [AddEx, if_neg hk, hev, if_true]
    rw [show removeOldest { c with
        evictList := ⟨k, v, effExpire now ttl c.expire⟩ :: c.evictList
        items := k :: c.items } = _ from rfl]
    simp [removeOldest, List.getLast?_eq_getLast _ hne, evictBack]

/-- C6 witness: inserting key 2 into a full capacity-1 cache. -/
theorem addEx_new_key_witness :
    addExNewSpec ({ size := 1, evictList := [⟨1, 11, none⟩], items := [1], expire := 0, evictLog := [] } : LRU Nat Nat) 4 2 22 0 :=
  addEx_new_key _ 4 2 22 0 (by decide)

/-- C7: `AddEx` of a key that is indexed satisfies `addExExistingSpec`:
in-place replacement of value and expiration, promotion to the front,
no eviction, no removal, no `onEvict`, unchanged length and index.  The
hypothesis that the key also occurs in the recency list reflects the
map/list coherence of every reachable state (claim C3). -/
theorem addEx_existing_key (c : LRU K V) (now : Int) (k : K) (v : V)
    (ttl : Int) (h1 : k ∈ c.items) (h2 : k ∈ c.evictList.map Entry.key) :
    addExExistingSpec c now k v ttl := by
  have hmain : AddEx c now k v ttl = (false, { c with
      evictList := ⟨k, v, effExpire now ttl c.expire⟩ :: eraseKey k c.evictList }) := by
    simp [AddEx, h1]
  refine ⟨hmain, ?_, ?_, ?_, ?_, rfl⟩
  · rw [hmain]
    show (eraseKey k c.evictList).length + 1 = c.evictList.length
    exact length_eraseKey_of_mem h2
  · rw [hmain]
  · rw [hmain]
  · rw [hmain]

/-- C7 witness: overwriting key 1 in a two-entry cache with a fresh ttl. -/
theorem addEx_existing_key_witness :
    addExExistingSpec ({ size := 2, evictList := [⟨2, 22, none⟩, ⟨1, 11, some 3⟩], items := [2, 1], expire := 0, evictLog := [] } : LRU Nat Nat) 4 1 99 7 :=
  addEx_existing_key _ 4 1 99 7 (by decide) (by decide)

/-- C8: `Get` of an indexed key whose entry has expired is a pure miss:
it returns not-found and the state — index, recency order, eviction log
and hence `Len` — is completely unchanged; the stale entry is not
removed and `onEvict` does not fire. -/
theorem get_expired_is_pure_miss (c : LRU K V) (now : Int) (k : K)
    (e : Entry K V) (h1 : k ∈ c.items) (h2 : findEntry k c.evictList = some e)
    (h3 : IsExpired now e = true) : Get c now k = (none, c) := by
  simp [Get, h1, h2, h3]

/-- C8 witness: key 1 expired at time 2, looked up at time 5. -/
theorem get_expired_is_pure_miss_witness :
    Get ({ size := 2, evictList := [⟨1, 11, some 2⟩], items := [1], expire := 0, evictLog := [] } : LRU Nat Nat) 5 1 =
    (none, ({ size := 2, evictList := [⟨1, 11, some 2⟩], items := [1], expire := 0, evictLog := [] } : LRU Nat Nat)) :=
  get_expired_is_pure_miss _ 5 1 ⟨1, 11, some 2⟩ (by decide) rfl rfl

/-- C9 counterexample: the claim quantifies over every integer
`newCapacity`, but for a negative one the code is off: on a one-entry
cache, `Resize (-1)` computes `diff = 1 - (-1) = 2`, runs the removal
loop twice (the second iteration is a no-op on the already-empty list),
and returns 2 even though only one entry was evicted and `onEvict`
fired once; the final size 0 also cannot equal the requested -1. -/
theorem resize_negative_counterexample :
    (Resize ({ size := 2, evictList := [⟨1, 10, none⟩], items := [1], expire := 0, evictLog := [] } : LRU Nat Nat) (-1)).1 = 2 ∧
    (Resize ({ size := 2, evictList := [⟨1, 10, none⟩], items := [1], expire := 0, evictLog := [] } : LRU Nat Nat) (-1)).2.evictLog.length = 1 ∧
    (Resize ({ size := 2, evictList := [⟨1, 10, none⟩], items := [1], expire := 0, evictLog := [] } : LRU Nat Nat) (-1)).1 ≠
      ((Resize ({ size := 2, evictList := [⟨1, 10, none⟩], items := [1], expire := 0, evictLog := [] } : LRU Nat Nat) (-1)).2.evictLog.length : Int) := by
  decide

/-- C9 (amended to `0 ≤ newCapacity`, the most the counterexample
forces): `Resize` keeps the `newCapacity` newest entries, evicts the
entries beyond them from the back — firing `onEvict` once per evicted
entry, back to front — returns exactly the number evicted, and when
`newCapacity` is at least the current size it evicts nothing, fires
nothing and returns 0; all as described by `resizeResult`. -/
theorem resize_nonneg (c : LRU K V) (n : Int) (h : 0 ≤ n) : resizeSpec c n := by
  have hmain : Resize c n = resizeResult c n := by
    simp only [Resize, resizeResult]
    rw [removeOldestN_spec]
    simp only [Prod.mk.injEq]
    refine ⟨?_, ?_⟩
    · rw [max_def]
      split_ifs <;> omega
    · by_cases hc : Len c - n < 0
      · have hlen : c.evictList.length ≤ n.toNat := by
          simp only [Len] at hc
          omega
        rw [if_pos hc, List.take_of_length_le hlen, List.drop_eq_nil_of_le hlen]
        simp only [Int.toNat_zero, Nat.sub_zero, List.take_length, List.drop_length,
          List.reverse_nil, List.foldl_nil, List.map_nil, List.append_nil]
      · have h1 : c.evictList.length - (Len c - n).toNat = n.toNat := by
          simp only [Len] at hc ⊢
          omega
        rw [if_neg hc, h1]
  refine ⟨hmain, ?_⟩
  rw [hmain]
  simp only [resizeResult, List.length_append, List.length_map, List.length_reverse,
    List.length_drop, Len]
  rw [max_def]
  split_ifs <;> omega

/-- C9 witness: shrinking a two-entry cache to capacity 1. -/
theorem resize_nonneg_witness :
    resizeSpec ({ size := 2, evictList := [⟨2, 22, none⟩, ⟨1, 11, none⟩], items := [2, 1], expire := 0, evictLog := [] } : LRU Nat Nat) 1 :=
  resize_nonneg _ 1 (by decide)

/-- C10: `Remove` of a key that is not indexed returns `false` and
leaves the whole state — index, recency list, eviction log, length —
untouched. -/
theorem remove_absent_key (c : LRU K V) (k : K) (h : k ∉ c.items) :
    Remove c k = (false, c) := by
  simp [Remove, h]

/-- C10 witness: removing the absent key 9. -/
theorem remove_absent_key_witness :
    Remove ({ size := 2, evictList := [⟨1, 11, none⟩], items := [1], expire := 0, evictLog := [] } : LRU Nat Nat) 9 =
    (false, ({ size := 2, evictList := [⟨1, 11, none⟩], items := [1], expire := 0, evictLog := [] } : LRU Nat Nat)) :=
  remove_absent_key _ 9 (by decide)

end SimpleLru
